import Mathlib

/-
Verification of the SEMOpx price-fetching client (aio_price.py).

Shallow embedding conventions:
* Python dicts that preserve insertion order are modelled as association
  lists; membership tests and item lookup are modelled by a first-match
  lookup function.
* Python numbers occurring in price arithmetic are modelled as rationals,
  so division is exact.
* A Python string used as a sequence (indexing, the `in` substring test)
  is embedded as the list of its one-character strings where the code
  indexes into it.
* External collaborators (the HTTP client, dateutil/pytz) are parameters:
  the index API is a function from page numbers to page responses, the
  detail API a function from resource names to optional documents, and
  the time library a structure of total functions plus the list of
  recognized timezone names.
-/

namespace Semopx

/-- Does the first character list start the second one? -/
def charsStart : List Char → List Char → Bool
  | [], _ => true
  | _ :: _, [] => false
  | a :: as, b :: bs => a = b && charsStart as bs

/-- Does the first character list occur contiguously inside the second? -/
def charsInfix (ndl : List Char) : List Char → Bool
  | [] => charsStart ndl []
  | b :: bs => charsStart ndl (b :: bs) || charsInfix ndl bs

/-- Substring test: does the needle occur contiguously inside the haystack?
Models the Python expression needle in haystack for strings. -/
def strContains (hay needle : String) : Bool :=
  charsInfix needle.toList hay.toList

/-! ## Index walker (_fetch_semopx_json) -/

/-- One item of a static-report index page: its Date field and its
ResourceName field. -/
structure IndexItem where
  date : String
  resourceName : String
deriving DecidableEq

/-- One page of the static-report index: the items list and the
pagination.totalPages metadata. -/
structure PageResp where
  items : List IndexItem
  totalPages : Nat
deriving DecidableEq

/-- A date group of the report dictionary: the date key and the ordered
resource list, as built by _fetch_semopx_json. -/
structure DateGroup where
  date : String
  resources : List String
deriving DecidableEq

/-- The walker's mutable state: the insertion-ordered report dictionary,
plus the key of the group currently referenced by the Python local
variable report (the most recently created group). -/
structure WalkerSt where
  dict : List (String × DateGroup)
  lastKey : Option String
deriving DecidableEq

/-- First-match lookup in the report dictionary (Python key membership
and item access). -/
def findGroup : List (String × DateGroup) → String → Option DateGroup
  | [], _ => none
  | (k, g) :: rest, key => if k = key then some g else findGroup rest key

/-- Append a resource name to the group stored under the given key
(mutation of the shared group object reached through the dictionary). -/
def appendRes (dict : List (String × DateGroup)) (key : String) (r : String) :
    List (String × DateGroup) :=
  dict.map fun kv =>
    if kv.1 = key then (kv.1, { kv.2 with resources := kv.2.resources ++ [r] }) else kv

/-- Process one index item, as the loop body at aio_price.py lines 65-70
does: compute the 10-character date key; if it is new, create a fresh
group under it and point the local variable report at it; then append
the ResourceName to the group the variable report points at — which is
the most recently created group, not necessarily this item's group. -/
def processItem (st : WalkerSt) (item : IndexItem) : WalkerSt :=
  let keyDate := item.date.take 10
  match findGroup st.dict keyDate with
  | some _ =>
      match st.lastKey with
      | some k => ⟨appendRes st.dict k item.resourceName, st.lastKey⟩
      | none => st
  | none =>
      ⟨st.dict ++ [(keyDate, ⟨keyDate, [item.resourceName]⟩)], some keyDate⟩

/-- Process a whole page of index items in arrival order. -/
def processItems (st : WalkerSt) (items : List IndexItem) : WalkerSt :=
  items.foldl processItem st

/-- The page loop of _fetch_semopx_json, with explicit fuel (the Python
loop may genuinely not terminate for adversarial page responses).
Returns the list of page numbers requested, the final state, and whether
the loop reached its break (true) or ran out of fuel (false). -/
def walkLoop (api : Nat → PageResp) (days : Nat) :
    Nat → Nat → WalkerSt → List Nat × WalkerSt × Bool
  | 0, _, st => ([], st, false)
  | fuel + 1, page, st =>
      if page + 1 ≥ (api (page + 1)).totalPages ∨
          (processItems st (api (page + 1)).items).dict.length > days then
        ([page + 1], processItems st (api (page + 1)).items, true)
      else
        ((page + 1) ::
            (walkLoop api days fuel (page + 1) (processItems st (api (page + 1)).items)).1,
          (walkLoop api days fuel (page + 1) (processItems st (api (page + 1)).items)).2)

/-- _fetch_semopx_json: run the page loop from page 0 and the empty
report dictionary. -/
def fetchSemopxJson (api : Nat → PageResp) (days fuel : Nat) :
    List Nat × WalkerSt × Bool :=
  walkLoop api days fuel 0 ⟨[], none⟩

/-- Walker state after the first n pages have been processed. -/
def stateUpTo (api : Nat → PageResp) : Nat → WalkerSt
  | 0 => ⟨[], none⟩
  | n + 1 => processItems (stateUpTo api n) (api (n + 1)).items

/-- The break condition of the page loop, evaluated after page n has been
processed: n has reached the reported totalPages, or the number of
distinct date groups exceeds days. -/
def stopAt (api : Nat → PageResp) (days n : Nat) : Prop :=
  n ≥ (api n).totalPages ∨ (stateUpTo api n).dict.length > days

instance (api : Nat → PageResp) (days n : Nat) : Decidable (stopAt api days n) := by
  unfold stopAt; infer_instance

/-! ## Result merger (_retrieve_market_results and helpers) -/

/-- The exception kinds that can escape the fetch path. clientError
models aiohttp.ClientError, keyError a Python KeyError, invalidTimezone
the ValueError raised by _parse_semopx_time, indexOutOfRange a Python
IndexError. -/
inductive SemErr where
  | clientError : SemErr
  | keyError : String → SemErr
  | invalidTimezone : String → SemErr
  | indexOutOfRange : SemErr
deriving DecidableEq

/-- The four session-type context tags, standing for the Python strings
da_, ida1_, ida2_, ida3_ returned by _determine_context_prefix. -/
inductive Ctx where
  | da : Ctx
  | ida1 : Ctx
  | ida2 : Ctx
  | ida3 : Ctx
deriving DecidableEq

/-- _determine_context_prefix: classify a resource name by substring
match, in the order of the Python if/elif chain; None for unrecognized
resources. -/
def determineContextTag (resourceName : String) : Option Ctx :=
  if strContains resourceName "SEM-DA" then some .da
  else if strContains resourceName "SEM-IDA1" then some .ida1
  else if strContains resourceName "SEM-IDA2" then some .ida2
  else if strContains resourceName "SEM-IDA3" then some .ida3
  else none

/-- Client configuration, as set in AioPrices.__init__. -/
structure Config where
  currency : String
  market_area : String
  tz : String
deriving DecidableEq

/-- The external time library (dateutil parse, pytz): parseEpoch models
int(parse_dt(s).timestamp()), localFmt models rendering the parsed
instant in the given timezone via strftime with format
%Y/%m/%d %H:%M:%S, and allTimezones models pytz.all_timezones. -/
structure TimeLib where
  parseEpoch : String → Int
  localFmt : String → String → String
  allTimezones : List String

/-- _parse_semopx_time: parse the timestamp string, raise ValueError if
the configured timezone name is not recognized, otherwise return the
epoch seconds and the localized rendering. -/
def parseSemopxTime (lib : TimeLib) (tz : String) (s : String) :
    Except SemErr (Int × String) :=
  let epoch := lib.parseEpoch s
  if tz ∈ lib.allTimezones then .ok (epoch, lib.localFmt tz s)
  else .error (.invalidTimezone tz)

/-- The list comprehension building key_list: parse every timestamp
string of the row in order, propagating the first error. -/
def parseAll (lib : TimeLib) (tz : String) :
    List String → Except SemErr (List (Int × String))
  | [] => .ok []
  | s :: rest =>
      match parseSemopxTime lib tz s with
      | .error e => .error e
      | .ok kv =>
          match parseAll lib tz rest with
          | .error e => .error e
          | .ok l => .ok (kv :: l)

/-- A price record of the merged result. Optional fields model dict keys
that may be absent. -/
structure PriceRecord where
  ts : Int
  datetime : String
  market_area : String
  currency : String
  da_kwh_rate : Option Rat := none
  ida1_kwh_rate : Option Rat := none
  ida2_kwh_rate : Option Rat := none
  ida3_kwh_rate : Option Rat := none
  final_kwh_rate : Option Rat := none
deriving DecidableEq

/-- The merged record dictionary, keyed by epoch timestamp, in insertion
order. -/
abbrev RecDict : Type := List (Int × PriceRecord)

/-- First-match lookup in the record dictionary (Python key membership
and item access on rec_dict). -/
def findRec : RecDict → Int → Option PriceRecord
  | [], _ => none
  | (k, r) :: rest, ts => if k = ts then some r else findRec rest ts

/-- The fresh record created at aio_price.py lines 139-145 for a
timestamp seen for the first time. -/
def newRecord (cfg : Config) (ts : Int) (dtStr : String) : PriceRecord :=
  { ts := ts, datetime := dtStr, market_area := cfg.market_area,
    currency := cfg.currency }

/-- The if ts not in rec_dict block: create the record on first sight,
keep the dictionary unchanged otherwise. kv is one parsed key_list
entry (epoch, localized datetime string). -/
def ensureTs (cfg : Config) (rec : RecDict) (kv : Int × String) : RecDict :=
  if (findRec rec kv.1).isSome then rec
  else rec ++ [(kv.1, newRecord cfg kv.1 kv.2)]

/-- Set the session field selected by the context tag. -/
def setRate (r : PriceRecord) (c : Ctx) (v : Rat) : PriceRecord :=
  match c with
  | .da => { r with da_kwh_rate := some v }
  | .ida1 => { r with ida1_kwh_rate := some v }
  | .ida2 => { r with ida2_kwh_rate := some v }
  | .ida3 => { r with ida3_kwh_rate := some v }

/-- Read the session field selected by the context tag. -/
def getRate (r : PriceRecord) (c : Ctx) : Option Rat :=
  match c with
  | .da => r.da_kwh_rate
  | .ida1 => r.ida1_kwh_rate
  | .ida2 => r.ida2_kwh_rate
  | .ida3 => r.ida3_kwh_rate

/-- The assignment rec_dict[ts][key] = v: update the entry stored under
ts in place (a no-op on a missing key, which Python would surface as a
KeyError; unreachable here because ensureTs runs first). -/
def setRateAt : RecDict → Int → Ctx → Rat → RecDict
  | [], _, _, _ => []
  | (k, r) :: rest, t, c, v =>
      if k = t then (k, setRate r c v) :: setRateAt rest t c v
      else (k, r) :: setRateAt rest t c v

/-- The loop body of _merge_prices: iterate the price list with a running
index i into key_list; a Python IndexError is raised when the price list
outruns key_list. -/
def mergePricesAux (cfg : Config) (c : Ctx) (keyList : List (Int × String)) :
    Nat → RecDict → List Rat → Except SemErr RecDict
  | _, rec, [] => .ok rec
  | i, rec, price :: rest =>
      match keyList[i]? with
      | none => .error .indexOutOfRange
      | some kv =>
          mergePricesAux cfg c keyList (i + 1)
            (setRateAt (ensureTs cfg rec kv) kv.1 c (price / 1000)) rest

/-- _merge_prices: fold every price of the row into the record
dictionary, pairing price i with key_list[i]. -/
def mergePrices (cfg : Config) (c : Ctx) (rec : RecDict)
    (keyList : List (Int × String)) (priceList : List Rat) :
    Except SemErr RecDict :=
  mergePricesAux cfg c keyList 0 rec priceList

/-- One row of a detail document (data_set_list): element 0 is the area
descriptor sequence, element 1 is unused by this code, element 2 the
timestamp strings, element 3 the price values. -/
structure Row where
  area : List String
  extra : List String
  times : List String
  prices : List Rat
deriving DecidableEq

/-- A detail document: its rows list (semopx_resp_dict.get('rows', [])). -/
structure Doc where
  rows : List Row
deriving DecidableEq

/-- The per-row body of _retrieve_market_results lines 94-99: skip the
row unless the configured market area occurs in data_set_list[0][1],
else parse every timestamp and merge the prices. -/
def processRow (lib : TimeLib) (cfg : Config) (c : Ctx) (rec : RecDict)
    (row : Row) : Except SemErr RecDict :=
  match row.area[1]? with
  | none => .error .indexOutOfRange
  | some desc =>
      if strContains desc cfg.market_area then
        match parseAll lib cfg.tz row.times with
        | .error e => .error e
        | .ok keyList => mergePrices cfg c rec keyList row.prices
      else .ok rec

/-- The rows loop of one resource document. -/
def processRows (lib : TimeLib) (cfg : Config) (c : Ctx) :
    RecDict → List Row → Except SemErr RecDict
  | rec, [] => .ok rec
  | rec, row :: rest =>
      match processRow lib cfg c rec row with
      | .error e => .error e
      | .ok rec2 => processRows lib cfg c rec2 rest

/-- Handling of one resource in _retrieve_market_results: fetch its
detail document (none models the falsy response obtained from a 204 or
empty body, which is logged and skipped), skip unrecognized resources,
else process its rows. -/
def retrieveForResource (lib : TimeLib) (cfg : Config)
    (docs : String → Option Doc) (rec : RecDict) (resourceName : String) :
    Except SemErr RecDict :=
  match docs resourceName with
  | none => .ok rec
  | some doc =>
      match determineContextTag resourceName with
      | none => .ok rec
      | some c => processRows lib cfg c rec doc.rows

/-- The resource loop of _retrieve_market_results, over the resource
names flattened from the report dictionary. -/
def processResources (lib : TimeLib) (cfg : Config)
    (docs : String → Option Doc) :
    List String → RecDict → Except SemErr RecDict
  | [], rec => .ok rec
  | name :: rest, rec =>
      match retrieveForResource lib cfg docs rec name with
      | .error e => .error e
      | .ok rec2 => processResources lib cfg docs rest rec2

/-- _finalize_records on one record: the if/elif chain assigning
final_kwh_rate from the highest-priority session field present, leaving
the record untouched when none is present. -/
def finalizeRecord (r : PriceRecord) : PriceRecord :=
  match r.ida3_kwh_rate with
  | some v => { r with final_kwh_rate := some v }
  | none =>
      match r.ida2_kwh_rate with
      | some v => { r with final_kwh_rate := some v }
      | none =>
          match r.ida1_kwh_rate with
          | some v => { r with final_kwh_rate := some v }
          | none =>
              match r.da_kwh_rate with
              | some v => { r with final_kwh_rate := some v }
              | none => r

/-- _finalize_records: finalize every record of the dictionary. -/
def finalizeRecords (rec : RecDict) : RecDict :=
  rec.map fun kv => (kv.1, finalizeRecord kv.2)

/-- _retrieve_market_results: iterate all resources of all date groups
in order, then finalize. The returned dictionary is the value stored
under the areas key of the Python result. -/
def retrieveMarketResults (lib : TimeLib) (cfg : Config)
    (docs : String → Option Doc) (reportDict : List (String × DateGroup)) :
    Except SemErr RecDict :=
  match processResources lib cfg docs
      ((reportDict.map fun kv => kv.2.resources).flatten) [] with
  | .error e => .error e
  | .ok recs => .ok (finalizeRecords recs)

/-! ## Retry wrapper (backoff.on_exception on fetch) -/

/-- Which exception kinds the backoff decorator on fetch retries:
exactly aiohttp.ClientError and KeyError. -/
def retryable : SemErr → Bool
  | .clientError => true
  | .keyError _ => true
  | _ => false

/-- The retry loop of the backoff decorator, with explicit fuel (the
decorator has no try limit, only a cap on the backoff interval).
attempts n is the outcome of the n-th call of the wrapped function. -/
def backoffRetry {α : Type} (attempts : Nat → Except SemErr α) :
    Nat → Nat → Except SemErr α
  | n, 0 => attempts n
  | n, fuel + 1 =>
      match attempts n with
      | .ok a => .ok a
      | .error e => if retryable e then backoffRetry attempts (n + 1) fuel else .error e

/-- The session-priority choice the spec describes: the value of the
highest-priority session field present (ida3 over ida2 over ida1 over
da), absent when none is present. Stated from the spec for comparison
with finalizeRecord. -/
def sessionPick (r : PriceRecord) : Option Rat :=
  match r.ida3_kwh_rate with
  | some v => some v
  | none =>
      match r.ida2_kwh_rate with
      | some v => some v
      | none =>
          match r.ida1_kwh_rate with
          | some v => some v
          | none => r.da_kwh_rate

/-! ## Proof-helper definitions (characterizing _merge_prices) -/

/-- One merge operation of _merge_prices: a parsed key_list entry
together with its price. -/
def applyOp (cfg : Config) (c : Ctx) (rec : RecDict)
    (op : (Int × String) × Rat) : RecDict :=
  setRateAt (ensureTs cfg rec op.1) op.1.1 c (op.2 / 1000)

/-- Fold a list of merge operations over the record dictionary. -/
def applyAll (cfg : Config) (c : Ctx) (rec : RecDict)
    (ops : List ((Int × String) × Rat)) : RecDict :=
  ops.foldl (applyOp cfg c) rec

/-- The timestamps written by a list of merge operations. -/
def opTs (ops : List ((Int × String) × Rat)) : List Int :=
  ops.map fun op => op.1.1

/-- No record of the dictionary carries a final_kwh_rate yet (the state
of every record dictionary before _finalize_records runs). -/
def NoFinal (x : RecDict) : Prop :=
  ∀ kv ∈ x, (kv : Int × PriceRecord).2.final_kwh_rate = none

/-! ## Concrete inputs used by witnesses and counterexamples -/

/-- Index items whose date keys interleave: 2024-01-01, 2024-01-02,
2024-01-01 again. -/
def itemsC1 : List IndexItem :=
  [⟨"2024-01-01T10:00:00", "r1"⟩, ⟨"2024-01-02T10:00:00", "r2"⟩,
   ⟨"2024-01-01T11:00:00", "r3"⟩]

/-- An index API that reports totalPages = 0 on every page. -/
def apiZero : Nat → PageResp := fun _ => ⟨[], 0⟩

/-- An index API with no items and totalPages = 2 on every page. -/
def apiW : Nat → PageResp := fun _ => ⟨[], 2⟩

/-- An index API with one item per page and totalPages = 5. -/
def apiY : Nat → PageResp := fun _ => ⟨[⟨"2024-01-01T00:00:00", "r"⟩], 5⟩

/-- A concrete time library: the timestamp 2024-01-01T00:00:00Z parses
to epoch 1704067200, and Europe/Dublin is the only recognized
timezone. -/
def libA : TimeLib :=
  { parseEpoch := fun _ => 1704067200,
    localFmt := fun _ _ => "2024/01/01 00:00:00",
    allTimezones := ["Europe/Dublin"] }

/-- The default configuration of AioPrices.__init__. -/
def cfgA : Config :=
  { currency := "euro", market_area := "ROI", tz := "Europe/Dublin" }

/-- The literal row of the spec scenario: its element 0 is the Python
string ROI-desc, embedded as the list of its one-character strings, so
that indexing it at 1 yields the one-character string O exactly as
Python string indexing does. -/
def rowLit : Row :=
  { area := ["R", "O", "I", "-", "d", "e", "s", "c"], extra := [],
    times := ["2024-01-01T00:00:00Z"], prices := [1000] }

/-- Detail documents serving the literal spec row for SEM-DA-1. -/
def docsLit : String → Option Doc :=
  fun n => if n = "SEM-DA-1" then some ⟨[rowLit]⟩ else none

/-- A one-group report dictionary naming the single resource SEM-DA-1. -/
def reportA : List (String × DateGroup) :=
  [("2024-01-01", ⟨"2024-01-01", ["SEM-DA-1"]⟩)]

/-- The spec row amended so the code's area test passes: element 0 is a
pair whose second component contains the market area ROI. -/
def rowAmd : Row :=
  { area := ["SEM", "ROI-desc"], extra := [],
    times := ["2024-01-01T00:00:00Z"], prices := [1000] }

/-- Detail documents serving the amended row for SEM-DA-1. -/
def docsAmd : String → Option Doc :=
  fun n => if n = "SEM-DA-1" then some ⟨[rowAmd]⟩ else none

/-- The single record produced from the amended row: the day-ahead rate
is the price 1000 divided by 1000, kept unevaluated. -/
def rcdA : PriceRecord :=
  { ts := 1704067200, datetime := "2024/01/01 00:00:00",
    market_area := "ROI", currency := "euro",
    da_kwh_rate := some (1000 / 1000), final_kwh_rate := some (1000 / 1000) }

/-- A configuration with an unrecognized timezone name. -/
def cfgBad : Config :=
  { currency := "euro", market_area := "ROI", tz := "Mars/Olympus" }

/-- An attempt sequence whose first call raises the invalid-timezone
ValueError. -/
def attemptsBad : Nat → Except SemErr RecDict :=
  fun _ => .error (.invalidTimezone "Mars/Olympus")

/-- A detail API answering every resource with no content. -/
def docsNone : String → Option Doc := fun _ => none

/-- A one-entry key list for merge witnesses. -/
def keyW : List (Int × String) := [(0, "d")]

/-- The record produced by merging price 2 at timestamp 0. -/
def recW : PriceRecord :=
  { ts := 0, datetime := "d", market_area := "ROI", currency := "euro",
    da_kwh_rate := some (2 / 1000) }

/-- The dictionary holding exactly recW. -/
def outW : RecDict := [(0, recW)]

/-! ## Walker lemmas -/

theorem processItems_stateUpTo (api : Nat → PageResp) (page : Nat) :
    processItems (stateUpTo api page) (api (page + 1)).items = stateUpTo api (page + 1) :=
  rfl

/-- If the page loop reaches its break, it has requested exactly the
consecutive pages page+1 .. page+K where page+K is the first page whose
break condition holds. -/
theorem walkLoop_stops_first (api : Nat → PageResp) (days : Nat) :
    ∀ fuel page reqs st fin,
      walkLoop api days fuel page (stateUpTo api page) = (reqs, st, fin) →
      fin = true →
      ∃ K, 0 < K ∧ reqs = List.range' (page + 1) K ∧
        stopAt api days (page + K) ∧
        ∀ m, page < m → m < page + K → ¬ stopAt api days m := by
  intro fuel
  induction fuel with
  | zero =>
      intro page reqs st fin h hfin
      simp only [walkLoop, Prod.mk.injEq] at h
      simp_all
  | succ fuel ih =>
      intro page reqs st fin h hfin
      rw [walkLoop] at h
      rw [processItems_stateUpTo] at h
      split at h
      case isTrue hstop =>
        simp only [Prod.mk.injEq] at h
        obtain ⟨h1, _, h3⟩ := h
        refine ⟨1, Nat.one_pos, ?_, ?_, ?_⟩
        · rw [← h1]; rfl
        · simpa [stopAt] using hstop
        · intro m hm1 hm2; omega
      case isFalse hstop =>
        rcases hw : walkLoop api days fuel (page + 1) (stateUpTo api (page + 1)) with
          ⟨reqs', st', fin'⟩
        rw [hw] at h
        simp only [Prod.mk.injEq] at h
        obtain ⟨h1, h2, h3⟩ := h
        subst h1 h2 h3
        obtain ⟨K, hK, hr, hs, hnb⟩ := ih (page + 1) reqs' st' fin' hw hfin
        refine ⟨K + 1, Nat.succ_pos _, ?_, ?_, ?_⟩
        · rw [hr, List.range'_succ]
        · have harith : page + (K + 1) = page + 1 + K := by omega
          rw [harith]; exact hs
        · intro m hm1 hm2
          by_cases hm : m = page + 1
          · subst hm
            intro hc
            exact hstop (by simpa [stopAt] using hc)
          · exact hnb m (by omega) (by omega)

/-- Every page number the loop requests is the unconditional next page
page+1, or exceeds it and is bounded by the totalPages reported on the
page just before it. -/
theorem walkLoop_pages_bounded (api : Nat → PageResp) (days : Nat) :
    ∀ fuel page st reqs st' fin,
      walkLoop api days fuel page st = (reqs, st', fin) →
      ∀ q ∈ reqs, q = page + 1 ∨ (page + 1 < q ∧ q ≤ (api (q - 1)).totalPages) := by
  intro fuel
  induction fuel with
  | zero =>
      intro page st reqs st' fin h q hq
      simp only [walkLoop, Prod.mk.injEq] at h
      rw [← h.1] at hq
      simp at hq
  | succ fuel ih =>
      intro page st reqs st' fin h q hq
      rw [walkLoop] at h
      split at h
      case isTrue hstop =>
        simp only [Prod.mk.injEq] at h
        rw [← h.1] at hq
        simp at hq
        exact Or.inl hq
      case isFalse hstop =>
        rcases hw : walkLoop api days fuel (page + 1)
            (processItems st (api (page + 1)).items) with ⟨reqs', stB, finB⟩
        rw [hw] at h
        simp only [Prod.mk.injEq] at h
        rw [← h.1] at hq
        rcases List.mem_cons.mp hq with hq1 | hq2
        · exact Or.inl hq1
        · rcases ih (page + 1) _ reqs' stB finB hw q hq2 with h1 | ⟨h2a, h2b⟩
          · push_neg at hstop
            have hlt : page + 1 < (api (page + 1)).totalPages := hstop.1
            have hq1 : q - 1 = page + 1 := by omega
            right
            constructor
            · omega
            · rw [hq1]; omega
          · exact Or.inr ⟨by omega, h2b⟩

/-! ## Claims C1, C4, C9 -/

/-- Claim C1 (code bug evidence): on the interleaved item sequence with
date keys 2024-01-01, 2024-01-02, 2024-01-01, the walker stores r3 in
the 2024-01-02 group even though r3's own date key is 2024-01-01: the
append at line 70 goes through the stale report variable, which still
points at the most recently created group. -/
theorem claim_C1_bug :
    (processItems ⟨[], none⟩ itemsC1).dict =
      [("2024-01-01", ⟨"2024-01-01", ["r1"]⟩),
       ("2024-01-02", ⟨"2024-01-02", ["r2", "r3"]⟩)] ∧
    (itemsC1.map fun it => it.date.take 10) =
      ["2024-01-01", "2024-01-02", "2024-01-01"] := by
  decide

/-- Claim C4: whenever the walker terminates normally, it has requested
exactly pages 1..K, where K is the first page after which the reported
totalPages has been reached or the number of distinct date groups
exceeds days; the break condition holds at no earlier page. -/
theorem claim_C4 (api : Nat → PageResp) (days fuel : Nat)
    (reqs : List Nat) (st : WalkerSt)
    (h : fetchSemopxJson api days fuel = (reqs, st, true)) :
    ∃ K, 0 < K ∧ reqs = List.range' 1 K ∧ stopAt api days K ∧
      ∀ m, 0 < m → m < K → ¬ stopAt api days m := by
  have h0 : walkLoop api days fuel 0 (stateUpTo api 0) = (reqs, st, true) := h
  obtain ⟨K, hK, hr, hs, hnb⟩ := walkLoop_stops_first api days fuel 0 reqs st true h0 rfl
  exact ⟨K, hK, by simpa using hr, by simpa using hs,
    fun m h1 h2 => by simpa using hnb m (by omega) (by omega)⟩

/-- Witness for claim C4: a run that stops on the day-count side after
page 1, with the stop condition verified concretely. -/
theorem claim_C4_witness :
    fetchSemopxJson apiY 0 3 =
      ([1], ⟨[("2024-01-01", ⟨"2024-01-01", ["r"]⟩)], some "2024-01-01"⟩, true) ∧
    (∃ K, 0 < K ∧ [1] = List.range' 1 K ∧ stopAt apiY 0 K ∧
      ∀ m, 0 < m → m < K → ¬ stopAt apiY 0 m) :=
  ⟨by decide,
   claim_C4 apiY 0 3 [1]
     ⟨[("2024-01-01", ⟨"2024-01-01", ["r"]⟩)], some "2024-01-01"⟩ (by decide)⟩

/-- Claim C9, counterexample to the statement as given: when the API
reports totalPages = 0, the walker still requests page 1, which is
greater than the reported totalPages. -/
theorem claim_C9_cex :
    (fetchSemopxJson apiZero 5 1).1 = [1] ∧ (apiZero 1).totalPages = 0 := by
  decide

/-- Claim C9 as amended: page 1 is requested unconditionally; every
later requested page q satisfies q ≤ totalPages as reported on page
q-1. -/
theorem claim_C9_amended (api : Nat → PageResp) (days fuel : Nat)
    (reqs : List Nat) (st : WalkerSt) (fin : Bool)
    (h : fetchSemopxJson api days fuel = (reqs, st, fin)) :
    ∀ q ∈ reqs, q = 1 ∨ (1 < q ∧ q ≤ (api (q - 1)).totalPages) := by
  intro q hq
  simpa using walkLoop_pages_bounded api days fuel 0 ⟨[], none⟩ reqs st fin h q hq

/-- Witness for the amended claim C9: a concrete run requesting pages 1
and 2, with page 2 within the totalPages bound reported on page 1. -/
theorem claim_C9_witness :
    fetchSemopxJson apiW 5 5 = ([1, 2], ⟨[], none⟩, true) ∧
    (2 = 1 ∨ (1 < 2 ∧ 2 ≤ (apiW 1).totalPages)) :=
  ⟨by decide, claim_C9_amended apiW 5 5 [1, 2] ⟨[], none⟩ true (by decide) 2 (by decide)⟩

/-! ## Record and rate lemmas -/

theorem getRate_setRate (r : PriceRecord) (c : Ctx) (v : Rat) :
    getRate (setRate r c v) c = some v := by
  cases c <;> rfl

theorem setRate_final (r : PriceRecord) (c : Ctx) (v : Rat) :
    (setRate r c v).final_kwh_rate = r.final_kwh_rate := by
  cases c <;> rfl

theorem setRate_setRate (r : PriceRecord) (c : Ctx) (v w : Rat) :
    setRate (setRate r c v) c w = setRate r c w := by
  cases c <;> rfl

theorem setRate_of_getRate {r : PriceRecord} {c : Ctx} {v : Rat}
    (h : getRate r c = some v) : setRate r c v = r := by
  cases c <;> (simp only [getRate] at h; simp only [setRate]; rw [← h])

theorem findRec_mem : ∀ {rec : RecDict} {t : Int} {r : PriceRecord},
    findRec rec t = some r → (t, r) ∈ rec := by
  intro rec
  induction rec with
  | nil => intro t r h; simp [findRec] at h
  | cons kv rest ih =>
      intro t r h
      rcases kv with ⟨k, r0⟩
      rw [findRec] at h
      split at h
      case isTrue hk =>
        injection h with h'
        rw [← hk, ← h']
        exact List.mem_cons_self _ _
      case isFalse hk =>
        exact List.mem_cons_of_mem _ (ih h)

theorem findRec_isSome_append {a : RecDict} {t : Int} (b : RecDict)
    (h : (findRec a t).isSome) : findRec (a ++ b) t = findRec a t := by
  induction a with
  | nil => simp [findRec] at h
  | cons kv rest ih =>
      rcases kv with ⟨k, r⟩
      rw [List.cons_append, findRec, findRec]
      by_cases hk : k = t
      · rw [if_pos hk, if_pos hk]
      · rw [if_neg hk, if_neg hk]
        rw [findRec, if_neg hk] at h
        exact ih h

theorem findRec_none_append {a : RecDict} {t : Int} (b : RecDict)
    (h : findRec a t = none) : findRec (a ++ b) t = findRec b t := by
  induction a with
  | nil => rfl
  | cons kv rest ih =>
      rcases kv with ⟨k, r⟩
      rw [findRec] at h
      rw [List.cons_append, findRec]
      by_cases hk : k = t
      · rw [if_pos hk] at h; cases h
      · rw [if_neg hk] at h
        rw [if_neg hk]
        exact ih h

theorem findRec_setRateAt (rec : RecDict) (t t' : Int) (c : Ctx) (v : Rat) :
    findRec (setRateAt rec t' c v) t =
      (findRec rec t).map fun r => if t = t' then setRate r c v else r := by
  induction rec with
  | nil => rfl
  | cons kv rest ih =>
      rcases kv with ⟨k, r0⟩
      rw [setRateAt]
      by_cases hk : k = t'
      · rw [if_pos hk]
        rw [findRec, findRec]
        by_cases ht : k = t
        · rw [if_pos ht, if_pos ht]
          rw [← hk, ← ht]
          simp
        · rw [if_neg ht, if_neg ht]
          exact ih
      · rw [if_neg hk]
        rw [findRec, findRec]
        by_cases ht : k = t
        · rw [if_pos ht, if_pos ht]
          have hne : t ≠ t' := fun hh => hk (ht.trans hh)
          simp [hne]
        · rw [if_neg ht, if_neg ht]
          exact ih

theorem findRec_setRateAt_isSome (rec : RecDict) (t t' : Int) (c : Ctx) (v : Rat) :
    (findRec (setRateAt rec t' c v) t).isSome = (findRec rec t).isSome := by
  rw [findRec_setRateAt]
  cases findRec rec t <;> simp

theorem ensureTs_of_isSome {cfg : Config} {rec : RecDict} {kv : Int × String}
    (h : (findRec rec kv.1).isSome) : ensureTs cfg rec kv = rec := by
  simp [ensureTs, h]

theorem findRec_ensureTs_mono {cfg : Config} {rec : RecDict} {kv : Int × String}
    {t : Int} (h : (findRec rec t).isSome) :
    (findRec (ensureTs cfg rec kv) t).isSome := by
  rw [ensureTs]
  split
  · exact h
  · rw [findRec_isSome_append _ h]; exact h

theorem findRec_ensureTs_self (cfg : Config) (rec : RecDict) (kv : Int × String) :
    (findRec (ensureTs cfg rec kv) kv.1).isSome := by
  rw [ensureTs]
  split
  case isTrue h => exact h
  case isFalse h =>
    have hnone : findRec rec kv.1 = none := by
      cases hx : findRec rec kv.1
      · rfl
      · rw [hx] at h; simp at h
    rw [findRec_none_append _ hnone]
    simp [findRec]

/-! ## applyAll lemmas -/

theorem applyAll_nil (cfg : Config) (c : Ctx) (rec : RecDict) :
    applyAll cfg c rec [] = rec := rfl

theorem applyAll_cons (cfg : Config) (c : Ctx) (rec : RecDict)
    (op : (Int × String) × Rat) (ops : List ((Int × String) × Rat)) :
    applyAll cfg c rec (op :: ops) = applyAll cfg c (applyOp cfg c rec op) ops := rfl

theorem applyAll_append (cfg : Config) (c : Ctx) (rec : RecDict)
    (l1 l2 : List ((Int × String) × Rat)) :
    applyAll cfg c rec (l1 ++ l2) = applyAll cfg c (applyAll cfg c rec l1) l2 :=
  List.foldl_append _ _ _ _

theorem opTs_cons (op : (Int × String) × Rat) (ops : List ((Int × String) × Rat)) :
    opTs (op :: ops) = op.1.1 :: opTs ops := rfl

theorem findRec_applyOp_mono {cfg : Config} {c : Ctx} {rec : RecDict}
    {op : (Int × String) × Rat} {t : Int} (h : (findRec rec t).isSome) :
    (findRec (applyOp cfg c rec op) t).isSome := by
  unfold applyOp
  rw [findRec_setRateAt_isSome]
  exact findRec_ensureTs_mono h

theorem findRec_applyOp_self (cfg : Config) (c : Ctx) (rec : RecDict)
    (op : (Int × String) × Rat) :
    (findRec (applyOp cfg c rec op) op.1.1).isSome := by
  unfold applyOp
  rw [findRec_setRateAt_isSome]
  exact findRec_ensureTs_self cfg rec op.1

theorem findRec_applyAll_mono {cfg : Config} {c : Ctx} :
    ∀ (ops : List ((Int × String) × Rat)) {rec : RecDict} {t : Int},
      (findRec rec t).isSome → (findRec (applyAll cfg c rec ops) t).isSome := by
  intro ops
  induction ops with
  | nil => intro rec t h; exact h
  | cons op rest ih =>
      intro rec t h
      rw [applyAll_cons]
      exact ih (findRec_applyOp_mono h)

/-! ## Commutation lemmas for merge operations -/

theorem setRateAt_append (a b : RecDict) (t : Int) (c : Ctx) (v : Rat) :
    setRateAt (a ++ b) t c v = setRateAt a t c v ++ setRateAt b t c v := by
  induction a with
  | nil => rfl
  | cons kv rest ih =>
      rcases kv with ⟨k, r⟩
      rw [List.cons_append, setRateAt, setRateAt]
      by_cases hk : k = t
      · rw [if_pos hk, if_pos hk, List.cons_append, ih]
      · rw [if_neg hk, if_neg hk, List.cons_append, ih]

theorem setRateAt_setRateAt_self (rec : RecDict) (t : Int) (c : Ctx) (v w : Rat) :
    setRateAt (setRateAt rec t c v) t c w = setRateAt rec t c w := by
  induction rec with
  | nil => rfl
  | cons kv rest ih =>
      rcases kv with ⟨k, r⟩
      by_cases hk : k = t <;>
        simp [setRateAt, hk, setRate_setRate, ih]

theorem setRateAt_comm {t t' : Int} (h : t ≠ t') (rec : RecDict) (c : Ctx) (v w : Rat) :
    setRateAt (setRateAt rec t c v) t' c w = setRateAt (setRateAt rec t' c w) t c v := by
  induction rec with
  | nil => rfl
  | cons kv rest ih =>
      rcases kv with ⟨k, r⟩
      by_cases hk : k = t
      · have hk' : k ≠ t' := fun hh => h (hk.symm.trans hh)
        simp [setRateAt, hk, hk', ih, h, h.symm]
      · by_cases hk' : k = t' <;> simp [setRateAt, hk, hk', ih, h, h.symm]

theorem ensureTs_setRateAt_comm {cfg : Config} {rec : RecDict} {t : Int}
    {c : Ctx} {v : Rat} (kv : Int × String) (h : (findRec rec t).isSome) :
    ensureTs cfg (setRateAt rec t c v) kv = setRateAt (ensureTs cfg rec kv) t c v := by
  by_cases hk : (findRec rec kv.1).isSome
  · rw [ensureTs_of_isSome hk]
    have hk2 : (findRec (setRateAt rec t c v) kv.1).isSome := by
      rw [findRec_setRateAt_isSome]; exact hk
    rw [ensureTs_of_isSome hk2]
  · have hkt : kv.1 ≠ t := fun hh => hk (by rw [hh]; exact h)
    have hk2 : ¬ (findRec (setRateAt rec t c v) kv.1).isSome = true := by
      rw [findRec_setRateAt_isSome]; exact hk
    rw [ensureTs, if_neg hk2, ensureTs, if_neg hk, setRateAt_append]
    have hsingle : setRateAt [(kv.1, newRecord cfg kv.1 kv.2)] t c v =
        [(kv.1, newRecord cfg kv.1 kv.2)] := by
      simp [setRateAt, hkt]
    rw [hsingle]

/-! ## Membership and value lemmas -/

theorem mem_setRateAt : ∀ {x : RecDict} {t : Int} {c : Ctx} {v : Rat}
    {kv : Int × PriceRecord}, kv ∈ setRateAt x t c v →
    ∃ kv0 ∈ x, kv = if kv0.1 = t then (kv0.1, setRate kv0.2 c v) else kv0 := by
  intro x
  induction x with
  | nil => intro t c v kv h; simp [setRateAt] at h
  | cons kv1 rest ih =>
      intro t c v kv h
      rcases kv1 with ⟨k, r⟩
      rw [setRateAt] at h
      by_cases hk : k = t
      · rw [if_pos hk] at h
        rcases List.mem_cons.mp h with h1 | h2
        · exact ⟨(k, r), List.mem_cons_self _ _, by simp [hk, h1]⟩
        · obtain ⟨kv0, hm, he⟩ := ih h2
          exact ⟨kv0, List.mem_cons_of_mem _ hm, he⟩
      · rw [if_neg hk] at h
        rcases List.mem_cons.mp h with h1 | h2
        · exact ⟨(k, r), List.mem_cons_self _ _, by simp [hk, h1]⟩
        · obtain ⟨kv0, hm, he⟩ := ih h2
          exact ⟨kv0, List.mem_cons_of_mem _ hm, he⟩

theorem mem_ensureTs {cfg : Config} {x : RecDict} {kv0 : Int × String}
    {kv : Int × PriceRecord} (h : kv ∈ ensureTs cfg x kv0) :
    kv ∈ x ∨ kv = (kv0.1, newRecord cfg kv0.1 kv0.2) := by
  rw [ensureTs] at h
  split at h
  · exact Or.inl h
  · rcases List.mem_append.mp h with h1 | h2
    · exact Or.inl h1
    · simp at h2
      exact Or.inr (by rw [h2])

theorem rates_applyOp_of_ne {cfg : Config} {c : Ctx} {x : RecDict}
    {op : (Int × String) × Rat} {t : Int} {v : Rat} (hne : op.1.1 ≠ t)
    (hall : ∀ r, (t, r) ∈ x → getRate r c = some v) :
    ∀ r, (t, r) ∈ applyOp cfg c x op → getRate r c = some v := by
  intro r hr
  unfold applyOp at hr
  obtain ⟨kv0, hm, he⟩ := mem_setRateAt hr
  have hkv0 : kv0 = (t, r) := by
    by_cases hk : kv0.1 = op.1.1
    · rw [if_pos hk] at he
      have ht : t = kv0.1 := ((Prod.mk.injEq _ _ _ _).mp he).1
      exact absurd (ht.trans hk).symm hne
    · rw [if_neg hk] at he
      exact he.symm
  rw [hkv0] at hm
  rcases mem_ensureTs hm with h1 | h2
  · exact hall r h1
  · have ht : t = op.1.1 := (Prod.mk.injEq _ _ _ _).mp h2 |>.1
    exact absurd ht.symm hne

theorem rates_applyOp_self {cfg : Config} {c : Ctx} {x : RecDict}
    {op : (Int × String) × Rat} :
    ∀ r, (op.1.1, r) ∈ applyOp cfg c x op → getRate r c = some (op.2 / 1000) := by
  intro r hr
  unfold applyOp at hr
  obtain ⟨kv0, hm, he⟩ := mem_setRateAt hr
  by_cases hk : kv0.1 = op.1.1
  · rw [if_pos hk] at he
    have hr' : r = setRate kv0.2 c (op.2 / 1000) :=
      ((Prod.mk.injEq _ _ _ _).mp he).2
    rw [hr']
    exact getRate_setRate _ _ _
  · rw [if_neg hk] at he
    exact absurd (show kv0.1 = op.1.1 by rw [← he]) hk

theorem rates_applyAll {cfg : Config} {c : Ctx} :
    ∀ (ops : List ((Int × String) × Rat)) {x : RecDict} {t : Int} {v : Rat},
      t ∉ opTs ops →
      (∀ r, (t, r) ∈ x → getRate r c = some v) →
      ∀ r, (t, r) ∈ applyAll cfg c x ops → getRate r c = some v := by
  intro ops
  induction ops with
  | nil => intro x t v _ hall r hr; exact hall r hr
  | cons op rest ih =>
      intro x t v hnot hall r hr
      rw [applyAll_cons] at hr
      rw [opTs_cons] at hnot
      have hne : op.1.1 ≠ t := fun hh => hnot (hh ▸ List.mem_cons_self _ _)
      have hnot' : t ∉ opTs rest := fun hh => hnot (List.mem_cons_of_mem _ hh)
      exact ih hnot' (rates_applyOp_of_ne hne hall) r hr

theorem applyAll_last_value {cfg : Config} {c : Ctx}
    {l1 l2 : List ((Int × String) × Rat)} {op : (Int × String) × Rat}
    {x : RecDict} {t : Int} (hop : op.1.1 = t) (hnot : t ∉ opTs l2) :
    ∀ r, (t, r) ∈ applyAll cfg c x (l1 ++ op :: l2) →
      getRate r c = some (op.2 / 1000) := by
  intro r hr
  rw [applyAll_append, applyAll_cons] at hr
  refine rates_applyAll l2 hnot ?_ r hr
  intro r' hr'
  exact rates_applyOp_self r' (by rw [hop]; exact hr')

/-! ## Idempotence of the merge fold -/

theorem applyAll_setRateAt {cfg : Config} {c : Ctx} :
    ∀ (rest : List ((Int × String) × Rat)) (x : RecDict) (t : Int) (v : Rat),
      (findRec x t).isSome →
      applyAll cfg c (setRateAt x t c v) rest =
        if t ∈ opTs rest then applyAll cfg c x rest
        else setRateAt (applyAll cfg c x rest) t c v := by
  intro rest
  induction rest with
  | nil =>
      intro x t v h
      rw [applyAll_nil, applyAll_nil]
      simp [opTs]
  | cons op2 rest' ih =>
      intro x t v h
      have hcomm : ensureTs cfg (setRateAt x t c v) op2.1 =
          setRateAt (ensureTs cfg x op2.1) t c v := ensureTs_setRateAt_comm op2.1 h
      by_cases ht2 : op2.1.1 = t
      · have habs : applyOp cfg c (setRateAt x t c v) op2 = applyOp cfg c x op2 := by
          unfold applyOp
          rw [hcomm, ht2, setRateAt_setRateAt_self]
        have hmem : t ∈ opTs (op2 :: rest') := by
          rw [opTs_cons, ht2]
          exact List.mem_cons_self _ _
        rw [if_pos hmem, applyAll_cons, applyAll_cons, habs]
      · have habs : applyOp cfg c (setRateAt x t c v) op2 =
            setRateAt (applyOp cfg c x op2) t c v := by
          unfold applyOp
          rw [hcomm, setRateAt_comm (fun hh => ht2 hh.symm)]
        have hmem : (t ∈ opTs (op2 :: rest')) ↔ (t ∈ opTs rest') := by
          rw [opTs_cons]
          exact ⟨fun hh => (List.mem_cons.mp hh).resolve_left (fun he => ht2 he.symm),
            fun hh => List.mem_cons_of_mem _ hh⟩
        rw [applyAll_cons, habs,
          ih (applyOp cfg c x op2) t v (findRec_applyOp_mono h)]
        by_cases hm : t ∈ opTs rest'
        · rw [if_pos hm, if_pos (hmem.mpr hm), applyAll_cons]
        · rw [if_neg hm, if_neg (fun hh => hm (hmem.mp hh)), applyAll_cons]

theorem setRateAt_eq_self {t : Int} {c : Ctx} {v : Rat} :
    ∀ {x : RecDict}, (∀ r, (t, r) ∈ x → getRate r c = some v) →
      setRateAt x t c v = x := by
  intro x
  induction x with
  | nil => intro _; rfl
  | cons kv rest ih =>
      intro hall
      rcases kv with ⟨k, r0⟩
      rw [setRateAt]
      by_cases hk : k = t
      · subst hk
        rw [if_pos rfl]
        have h0 : getRate r0 c = some v := hall r0 (List.mem_cons_self _ _)
        rw [setRate_of_getRate h0,
          ih fun r hr => hall r (List.mem_cons_of_mem _ hr)]
      · rw [if_neg hk, ih fun r hr => hall r (List.mem_cons_of_mem _ hr)]

theorem applyAll_idem (cfg : Config) (c : Ctx) :
    ∀ (ops : List ((Int × String) × Rat)) (rec : RecDict),
      applyAll cfg c (applyAll cfg c rec ops) ops = applyAll cfg c rec ops := by
  intro ops
  induction ops with
  | nil => intro rec; rfl
  | cons op rest ih =>
      intro rec
      rw [applyAll_cons cfg c rec op rest]
      rw [applyAll_cons cfg c (applyAll cfg c (applyOp cfg c rec op) rest) op rest]
      have hsome : (findRec (applyAll cfg c (applyOp cfg c rec op) rest) op.1.1).isSome :=
        findRec_applyAll_mono rest (findRec_applyOp_self cfg c rec op)
      have hstep : applyOp cfg c (applyAll cfg c (applyOp cfg c rec op) rest) op =
          setRateAt (applyAll cfg c (applyOp cfg c rec op) rest) op.1.1 c (op.2 / 1000) := by
        conv_lhs => rw [applyOp]
        rw [ensureTs_of_isSome hsome]
      rw [hstep,
        applyAll_setRateAt rest (applyAll cfg c (applyOp cfg c rec op) rest) op.1.1
          (op.2 / 1000) hsome]
      have hrec : applyAll cfg c (applyAll cfg c (applyOp cfg c rec op) rest) rest =
          applyAll cfg c (applyOp cfg c rec op) rest := ih (applyOp cfg c rec op)
      by_cases hm : op.1.1 ∈ opTs rest
      · rw [if_pos hm]
        exact hrec
      · rw [if_neg hm, hrec]
        apply setRateAt_eq_self
        intro r hr
        exact @applyAll_last_value cfg c [] rest op rec op.1.1 rfl hm r hr

/-! ## Merge loop characterization -/

theorem mergePricesAux_ok (cfg : Config) (c : Ctx) (keyList : List (Int × String)) :
    ∀ (ps : List Rat) (i : Nat) (rec : RecDict),
      i + ps.length ≤ keyList.length →
      mergePricesAux cfg c keyList i rec ps =
        .ok (applyAll cfg c rec ((keyList.drop i).zip ps)) := by
  intro ps
  induction ps with
  | nil =>
      intro i rec h
      rw [List.zip_nil_right, applyAll_nil, mergePricesAux]
  | cons p rest ih =>
      intro i rec h
      simp only [List.length_cons] at h
      have hi : i < keyList.length := by omega
      rw [mergePricesAux]
      simp only [List.getElem?_eq_getElem hi]
      rw [ih (i + 1) _ (by omega)]
      rw [List.drop_eq_getElem_cons hi, List.zip_cons_cons, applyAll_cons]
      rfl

theorem mergePricesAux_err (cfg : Config) (c : Ctx) (keyList : List (Int × String)) :
    ∀ (ps : List Rat) (i : Nat) (rec : RecDict),
      keyList.length - i < ps.length →
      mergePricesAux cfg c keyList i rec ps = .error .indexOutOfRange := by
  intro ps
  induction ps with
  | nil =>
      intro i rec h
      exact absurd h (Nat.not_lt_zero _)
  | cons p rest ih =>
      intro i rec h
      rw [mergePricesAux]
      by_cases hi : i < keyList.length
      · rw [List.getElem?_eq_getElem hi]
        exact ih (i + 1) _ (by simp only [List.length_cons] at h; omega)
      · rw [List.getElem?_eq_none (by omega)]

theorem zip_take_self : ∀ {α β : Type} (l1 : List α) (l2 : List β),
    l1.zip l2 = (l1.take l2.length).zip l2 := by
  intro α β l1
  induction l1 with
  | nil => intro l2; simp
  | cons a rest ih =>
      intro l2
      cases l2 with
      | nil => simp
      | cons b l2' =>
          rw [List.zip_cons_cons, List.length_cons, List.take_succ_cons,
            List.zip_cons_cons, ih]

theorem opTs_zip : ∀ (keyList : List (Int × String)) (ps : List Rat),
    opTs (keyList.zip ps) = (keyList.map Prod.fst).take ps.length := by
  intro keyList
  induction keyList with
  | nil => intro ps; simp [opTs]
  | cons kv rest ih =>
      intro ps
      cases ps with
      | nil => simp [opTs]
      | cons p ps' =>
          rw [List.zip_cons_cons, opTs_cons, List.map_cons, List.length_cons,
            List.take_succ_cons, ih]

theorem opTs_drop (ops : List ((Int × String) × Rat)) (n : Nat) :
    opTs (ops.drop n) = (opTs ops).drop n := by
  unfold opTs
  rw [List.map_drop]

/-! ## Claims C5, C6, C10 -/

/-- Claim C10: when the price list of a matching row is strictly longer
than its key list, _merge_prices raises an index out-of-range error;
otherwise only the first len(prices) key entries take part, so trailing
timestamps are silently ignored. -/
theorem claim_C10 (cfg : Config) (c : Ctx) (rec : RecDict)
    (keyList : List (Int × String)) (ps : List Rat) :
    mergePrices cfg c rec keyList ps =
      if keyList.length < ps.length then .error .indexOutOfRange
      else mergePrices cfg c rec (keyList.take ps.length) ps := by
  by_cases h : keyList.length < ps.length
  · rw [if_pos h, mergePrices]
    exact mergePricesAux_err cfg c keyList ps 0 rec (by omega)
  · rw [if_neg h]
    push_neg at h
    rw [mergePrices, mergePrices]
    rw [mergePricesAux_ok cfg c keyList ps 0 rec (by omega)]
    rw [mergePricesAux_ok cfg c (keyList.take ps.length) ps 0 rec
      (by rw [List.length_take]; omega)]
    rw [List.drop_zero, List.drop_zero, ← zip_take_self]

/-- Claim C5: _merge_prices is idempotent — re-merging the same key list
and price list into its own output changes nothing, because each stored
rate is overwritten with the same value. -/
theorem claim_C5 (cfg : Config) (c : Ctx) (rec out : RecDict)
    (keyList : List (Int × String)) (ps : List Rat)
    (h : mergePrices cfg c rec keyList ps = .ok out) :
    mergePrices cfg c out keyList ps = .ok out := by
  have hlen : ps.length ≤ keyList.length := by
    by_contra hc
    push_neg at hc
    rw [mergePrices, mergePricesAux_err cfg c keyList ps 0 rec (by omega)] at h
    simp at h
  rw [mergePrices, mergePricesAux_ok cfg c keyList ps 0 rec (by omega)] at h
  simp only [Except.ok.injEq] at h
  rw [mergePrices, mergePricesAux_ok cfg c keyList ps 0 out (by omega), ← h,
    applyAll_idem]

/-- Witness for claim C5: merging price 2 at timestamp 0 a second time
reproduces the same one-record dictionary. -/
theorem claim_C5_witness :
    mergePrices cfgA Ctx.da outW keyW [2] = .ok outW :=
  claim_C5 cfgA Ctx.da [] outW keyW [2] (by rfl)

/-- Claim C6: for a key list with distinct timestamps, the rate stored
for the timestamp at position i of a merged row is exactly the price at
position i divided by 1000. -/
theorem claim_C6 (cfg : Config) (c : Ctx) (rec out : RecDict)
    (keyList : List (Int × String)) (ps : List Rat) (i : Nat)
    (t : Int) (d : String) (p : Rat)
    (hnd : (keyList.map Prod.fst).Nodup)
    (hok : mergePrices cfg c rec keyList ps = .ok out)
    (hk : keyList[i]? = some (t, d))
    (hp : ps[i]? = some p) :
    ∃ r, findRec out t = some r ∧ getRate r c = some (p / 1000) := by
  have hlen : ps.length ≤ keyList.length := by
    by_contra hc
    push_neg at hc
    rw [mergePrices, mergePricesAux_err cfg c keyList ps 0 rec (by omega)] at hok
    simp at hok
  rw [mergePrices, mergePricesAux_ok cfg c keyList ps 0 rec (by omega)] at hok
  simp only [Except.ok.injEq, List.drop_zero] at hok
  have hops_i : (keyList.zip ps)[i]? = some ((t, d), p) :=
    List.getElem?_zip_eq_some.mpr ⟨hk, hp⟩
  have hi : i < (keyList.zip ps).length := (List.getElem?_eq_some_iff.mp hops_i).1
  have hops_get : (keyList.zip ps)[i] = ((t, d), p) := by
    rcases List.getElem?_eq_some_iff.mp hops_i with ⟨hh, he⟩
    exact he
  have hsplit : keyList.zip ps =
      (keyList.zip ps).take i ++ ((t, d), p) :: (keyList.zip ps).drop (i + 1) := by
    conv_lhs => rw [← List.take_append_drop i (keyList.zip ps)]
    rw [List.drop_eq_getElem_cons hi, hops_get]
  have hti : i < keyList.length := (List.getElem?_eq_some_iff.mp hk).1
  have htl_i : (keyList.map Prod.fst)[i]? = some t := by
    rw [List.getElem?_map, hk]
    rfl
  have htnot : t ∉ opTs ((keyList.zip ps).drop (i + 1)) := by
    intro hmem
    rw [opTs_drop, opTs_zip] at hmem
    obtain ⟨j, hj⟩ := List.mem_iff_getElem?.mp hmem
    rw [List.getElem?_drop] at hj
    have hjlt : i + 1 + j < ps.length := by
      have hh := (List.getElem?_eq_some_iff.mp hj).1
      rw [List.length_take] at hh
      omega
    rw [List.getElem?_take_of_lt hjlt] at hj
    have heq := List.getElem?_inj
      (by rw [List.length_map]; exact hti) hnd (htl_i.trans hj.symm)
    omega
  have hall : ∀ r, (t, r) ∈ out → getRate r c = some (p / 1000) := by
    intro r hr
    rw [← hok, hsplit] at hr
    exact @applyAll_last_value cfg c ((keyList.zip ps).take i)
      ((keyList.zip ps).drop (i + 1)) ((t, d), p) rec t rfl htnot r hr
  have hsome : (findRec out t).isSome := by
    rw [← hok, hsplit, applyAll_append, applyAll_cons]
    exact findRec_applyAll_mono _ (findRec_applyOp_self cfg c _ ((t, d), p))
  cases hfr : findRec out t with
  | none => rw [hfr] at hsome; simp at hsome
  | some r => exact ⟨r, rfl, hall r (findRec_mem hfr)⟩

/-- Witness for claim C6: the rate stored at timestamp 0 is exactly
2 / 1000. -/
theorem claim_C6_witness :
    ∃ r, findRec outW 0 = some r ∧ getRate r Ctx.da = some (2 / 1000) :=
  claim_C6 cfgA Ctx.da [] outW keyW [2] 0 0 "d" 2 (by decide) (by rfl) (by rfl)
    (by rfl)

/-! ## The no-final invariant of pre-finalization dictionaries -/

theorem noFinal_setRateAt {x : RecDict} {t : Int} {c : Ctx} {v : Rat}
    (h : NoFinal x) : NoFinal (setRateAt x t c v) := by
  intro kv hkv
  obtain ⟨kv0, hm, he⟩ := mem_setRateAt hkv
  by_cases hk : kv0.1 = t
  · rw [if_pos hk] at he
    rw [he]
    exact (setRate_final _ _ _).trans (h kv0 hm)
  · rw [if_neg hk] at he
    rw [he]
    exact h kv0 hm

theorem noFinal_ensureTs {cfg : Config} {x : RecDict} {kv0 : Int × String}
    (h : NoFinal x) : NoFinal (ensureTs cfg x kv0) := by
  intro kv hkv
  rcases mem_ensureTs hkv with h1 | h2
  · exact h kv h1
  · rw [h2]
    rfl

theorem noFinal_mergePricesAux {cfg : Config} {c : Ctx}
    {keyList : List (Int × String)} :
    ∀ (ps : List Rat) (i : Nat) {x out : RecDict},
      mergePricesAux cfg c keyList i x ps = .ok out → NoFinal x → NoFinal out := by
  intro ps
  induction ps with
  | nil =>
      intro i x out h hx
      rw [mergePricesAux] at h
      simp only [Except.ok.injEq] at h
      rw [← h]
      exact hx
  | cons p rest ih =>
      intro i x out h hx
      rw [mergePricesAux] at h
      cases hkv : keyList[i]? with
      | none => rw [hkv] at h; cases h
      | some kv =>
          simp only [hkv] at h
          exact ih (i + 1) h (noFinal_setRateAt (noFinal_ensureTs hx))

theorem noFinal_processRow {lib : TimeLib} {cfg : Config} {c : Ctx}
    {x out : RecDict} {row : Row}
    (h : processRow lib cfg c x row = .ok out) (hx : NoFinal x) : NoFinal out := by
  rw [processRow] at h
  cases hA : row.area[1]? with
  | none => rw [hA] at h; cases h
  | some desc =>
      simp only [hA] at h
      split at h
      · cases hP : parseAll lib cfg.tz row.times with
        | error e => rw [hP] at h; cases h
        | ok kl =>
            simp only [hP] at h
            rw [mergePrices] at h
            exact noFinal_mergePricesAux _ 0 h hx
      · simp only [Except.ok.injEq] at h
        rw [← h]
        exact hx

theorem noFinal_processRows {lib : TimeLib} {cfg : Config} {c : Ctx} :
    ∀ (rows : List Row) {x out : RecDict},
      processRows lib cfg c x rows = .ok out → NoFinal x → NoFinal out := by
  intro rows
  induction rows with
  | nil =>
      intro x out h hx
      rw [processRows] at h
      simp only [Except.ok.injEq] at h
      rw [← h]
      exact hx
  | cons row rest ih =>
      intro x out h hx
      rw [processRows] at h
      cases hR : processRow lib cfg c x row with
      | error e => rw [hR] at h; cases h
      | ok x2 =>
          simp only [hR] at h
          exact ih h (noFinal_processRow hR hx)

theorem noFinal_retrieveForResource {lib : TimeLib} {cfg : Config}
    {docs : String → Option Doc} {x out : RecDict} {name : String}
    (h : retrieveForResource lib cfg docs x name = .ok out) (hx : NoFinal x) :
    NoFinal out := by
  rw [retrieveForResource] at h
  cases hD : docs name with
  | none =>
      rw [hD] at h
      simp only [Except.ok.injEq] at h
      rw [← h]
      exact hx
  | some doc =>
      simp only [hD] at h
      cases hT : determineContextTag name with
      | none =>
          rw [hT] at h
          simp only [Except.ok.injEq] at h
          rw [← h]
          exact hx
      | some c =>
          simp only [hT] at h
          exact noFinal_processRows _ h hx

theorem noFinal_processResources {lib : TimeLib} {cfg : Config}
    {docs : String → Option Doc} :
    ∀ (names : List String) {x out : RecDict},
      processResources lib cfg docs names x = .ok out → NoFinal x → NoFinal out := by
  intro names
  induction names with
  | nil =>
      intro x out h hx
      rw [processResources] at h
      simp only [Except.ok.injEq] at h
      rw [← h]
      exact hx
  | cons name rest ih =>
      intro x out h hx
      rw [processResources] at h
      cases hR : retrieveForResource lib cfg docs x name with
      | error e => rw [hR] at h; cases h
      | ok x2 =>
          simp only [hR] at h
          exact ih h (noFinal_retrieveForResource hR hx)

theorem finalizeRecord_final {r : PriceRecord} (h : r.final_kwh_rate = none) :
    (finalizeRecord r).final_kwh_rate = sessionPick (finalizeRecord r) := by
  cases h3 : r.ida3_kwh_rate <;> cases h2 : r.ida2_kwh_rate <;>
    cases h1 : r.ida1_kwh_rate <;> cases h0 : r.da_kwh_rate <;>
    simp [finalizeRecord, sessionPick, h3, h2, h1, h0, h]

/-! ## Claim C2 -/

/-- Claim C2: in the finalized result of _retrieve_market_results, every
record's final_kwh_rate equals the highest-priority session rate present
on that record (ida3 over ida2 over ida1 over da), and is absent when no
session rate is present. -/
theorem claim_C2 (lib : TimeLib) (cfg : Config) (docs : String → Option Doc)
    (reportDict : List (String × DateGroup)) (res : RecDict) (t : Int)
    (r : PriceRecord)
    (hok : retrieveMarketResults lib cfg docs reportDict = .ok res)
    (hfind : findRec res t = some r) :
    r.final_kwh_rate = sessionPick r := by
  rw [retrieveMarketResults] at hok
  cases hpr : processResources lib cfg docs
      ((reportDict.map fun kv => kv.2.resources).flatten) [] with
  | error e => rw [hpr] at hok; cases hok
  | ok recs =>
      simp only [hpr, Except.ok.injEq] at hok
      have hnf : NoFinal recs :=
        noFinal_processResources _ hpr (fun kv hkv => by simp at hkv)
      have hmem : (t, r) ∈ res := findRec_mem hfind
      rw [← hok, finalizeRecords] at hmem
      obtain ⟨kv0, h0, heq⟩ := List.mem_map.mp hmem
      have hr : r = finalizeRecord kv0.2 := ((Prod.mk.injEq _ _ _ _).mp heq).2.symm
      rw [hr]
      exact finalizeRecord_final (hnf kv0 h0)

/-- Witness for claim C2: in the concrete one-record run, the day-ahead
rate is the only session rate and final_kwh_rate equals it. -/
theorem claim_C2_witness :
    rcdA.final_kwh_rate = sessionPick rcdA :=
  claim_C2 libA cfgA docsAmd reportA [(1704067200, rcdA)] 1704067200 rcdA
    (by rfl) (by rfl)

/-! ## Claim C3 -/

/-- Claim C3, counterexample to the statement as given: with the literal
row of the scenario, whose element 0 is the Python string ROI-desc, the
code's area test inspects element 1 of element 0 — the one-character
string O — which does not contain ROI, so the row is skipped and the
merge produces no record at all instead of the one record the claim
asserts. -/
theorem claim_C3_cex :
    retrieveMarketResults libA cfgA docsLit reportA = .ok ([] : RecDict) := by
  rfl

/-- Claim C3 as amended: when the row's element 0 is a sequence whose
element 1 contains the market area (here ["SEM", "ROI-desc"]), merging
produces exactly one record, keyed by the epoch 1704067200 of
2024-01-01T00:00:00Z, whose da_kwh_rate is 1000 / 1000 = 1 and, after
finalization, whose final_kwh_rate is also 1. -/
theorem claim_C3_amended :
    retrieveMarketResults libA cfgA docsAmd reportA = .ok [(1704067200, rcdA)] ∧
    rcdA.da_kwh_rate = some 1 ∧ rcdA.final_kwh_rate = some 1 := by
  refine ⟨by rfl, ?_, ?_⟩ <;> norm_num [rcdA]

/-! ## Claims C7 and C8 -/

/-- Claim C7: with an unrecognized timezone name, _parse_semopx_time
raises the invalid-timezone ValueError for every timestamp string; that
error kind is not among those the backoff decorator on fetch retries
(only transport and missing-key errors are), so an attempt failing with
it is surfaced unchanged with no further attempt, whatever the retry
budget. -/
theorem claim_C7 {α : Type} (lib : TimeLib) (cfg : Config) (s : String)
    (attempts : Nat → Except SemErr α) (fuel : Nat)
    (htz : cfg.tz ∉ lib.allTimezones)
    (hatt : attempts 0 = .error (.invalidTimezone cfg.tz)) :
    parseSemopxTime lib cfg.tz s = .error (.invalidTimezone cfg.tz) ∧
    retryable (.invalidTimezone cfg.tz) = false ∧
    backoffRetry attempts 0 fuel = .error (.invalidTimezone cfg.tz) := by
  refine ⟨?_, rfl, ?_⟩
  · simp [parseSemopxTime, htz]
  · cases fuel with
    | zero => rw [backoffRetry]; exact hatt
    | succ fuel => simp [backoffRetry, hatt, retryable]

/-- Witness for claim C7 at the concrete unrecognized timezone
Mars/Olympus. -/
theorem claim_C7_witness :
    parseSemopxTime libA cfgBad.tz "2024-01-01T00:00:00Z" =
      .error (.invalidTimezone cfgBad.tz) ∧
    retryable (.invalidTimezone cfgBad.tz) = false ∧
    backoffRetry attemptsBad 0 3 = .error (.invalidTimezone cfgBad.tz) :=
  claim_C7 libA cfgBad "2024-01-01T00:00:00Z" attemptsBad 3 (by decide) (by rfl)

/-- Claim C8: a resource whose detail fetch returns no content is
skipped: the record dictionary is returned unchanged with no error, and
processing continues with the remaining resources exactly as if the
resource were absent. -/
theorem claim_C8 (lib : TimeLib) (cfg : Config) (docs : String → Option Doc)
    (rec : RecDict) (name : String) (rest : List String)
    (h : docs name = none) :
    retrieveForResource lib cfg docs rec name = .ok rec ∧
    processResources lib cfg docs (name :: rest) rec =
      processResources lib cfg docs rest rec := by
  have h1 : retrieveForResource lib cfg docs rec name = .ok rec := by
    rw [retrieveForResource, h]
  exact ⟨h1, by rw [processResources, h1]⟩

/-- Witness for claim C8: with a detail API answering no content, the
one-resource run leaves the empty dictionary unchanged. -/
theorem claim_C8_witness :
    retrieveForResource libA cfgA docsNone [] "SEM-DA-1" = .ok [] ∧
    processResources libA cfgA docsNone ["SEM-DA-1"] [] =
      processResources libA cfgA docsNone [] [] :=
  claim_C8 libA cfgA docsNone [] "SEM-DA-1" [] (by rfl)

end Semopx
